import Mathlib

set_option maxRecDepth 100000

/-!
Verification of the one-shot regex migration script `transform.py`.

The script reads a PHP test-fixture file, applies a single
`re.sub(pattern, transform_request, content, flags=re.MULTILINE | re.DOTALL)`
pass, writes the result back and prints a fixed message.

The embedding below models text as `List Char`.  The fixed regular
expression is represented as a token list (`patToks`): every quantifier in
the concrete pattern applies to a single character class, so a token is
either a literal string or a quantified character class, and `matchToks`
implements exactly the backtracking search order of Python's engine
(greedy classes try the longest repetition first, lazy ones the shortest;
the first token order is the concatenation order of the pattern).
`subGoF` (wrapped as `re_sub`) implements `re.sub`'s left-to-right
non-overlapping scan.
The model was cross-checked against CPython's `re` on the inputs used in
the theorems below.

Single quotes are frequent characters of the transformed text; the helper
`pstr` writes them as `#` inside Lean string literals and maps them back.
-/

/-- The single-quote character `'` (ASCII 39). -/
def qc : Char := Char.ofNat 39

/-- Decode a string literal in which `#` stands for a single quote. -/
def pstr (s : String) : List Char :=
  s.data.map (fun c => if c = '#' then qc else c)

/-- ASCII fragment of Python's `\s` class (the file and all inputs of
interest are ASCII; `re` additionally accepts some Unicode spaces). -/
def isPyWs (c : Char) : Bool :=
  c = ' ' || c = '\t' || c = '\n' || c = '\r' || c = '\x0b' || c = '\x0c'

/-- Character classes occurring in the pattern:
`\s`, `['"]`, `[^,]`, `,` (for the optional comma) and `.` under DOTALL. -/
inductive CC where
  | ws | quote | nonComma | comma | anyc
deriving DecidableEq, Repr

/-- Membership in a character class.  `[^,]` matches newlines (negated
classes ignore DOTALL) and `.` matches every character because the script
passes `re.DOTALL`. -/
def CC.mem : CC → Char → Bool
  | .ws, c => isPyWs c
  | .quote, c => c = qc || c = '"'
  | .nonComma, c => !(c = ',')
  | .comma, c => c = ','
  | .anyc, _ => true

/-- One token of the pattern: a literal, or a character class repeated
between `lo` and `hi` times (`hi = none`: unbounded), lazily if `lz`,
captured as group `grp` when present. -/
inductive Tok where
  | lit (l : List Char)
  | cls (c : CC) (lo : Nat) (hi : Option Nat) (lz : Bool) (grp : Option Nat)
deriving DecidableEq, Repr

/-- Prepend a capture binding when the token carries a group number. -/
def addG : Option Nat → List Char → List (Nat × List Char) → List (Nat × List Char)
  | none, _, gs => gs
  | some n, cap, gs => (n, cap) :: gs

/-- First success of `f` over a list of candidates, in order: the
backtracking order of the regex engine. -/
def firstSome : List α → (α → Option β) → Option β
  | [], _ => none
  | a :: as, f => match f a with
    | some b => some b
    | none => firstSome as f

/-- Candidate repetition counts for a class token at the start of `s`:
`lo .. min run hi` where `run` is the maximal run of the class here;
greedy tokens try large counts first, lazy ones small counts first —
exactly Python's backtracking order for this pattern shape. -/
def candList (c : CC) (lo : Nat) (hi : Option Nat) (lz : Bool) (s : List Char) : List Nat :=
  if lz then List.range' lo (min (s.takeWhile c.mem).length (hi.getD (s.takeWhile c.mem).length) + 1 - lo)
  else (List.range' lo (min (s.takeWhile c.mem).length (hi.getD (s.takeWhile c.mem).length) + 1 - lo)).reverse

/-- Backtracking matcher for a token list at the start of `s`.  Returns
the group bindings and the remaining text after the match. -/
def matchToks : List Tok → List Char → Option (List (Nat × List Char) × List Char)
  | [], s => some ([], s)
  | .lit l :: ts, s =>
      if l.isPrefixOf s then matchToks ts (s.drop l.length) else none
  | .cls c lo hi lz g :: ts, s =>
      firstSome (candList c lo hi lz s) (fun k =>
        match matchToks ts (s.drop k) with
        | some (gs, r) => some (addG g (s.take k) gs, r)
        | none => none)

/-- `\s*` (uncaptured). -/
def wsTok : Tok := .cls .ws 0 none false none

/-- `['"]`. -/
def qTok : Tok := .cls .quote 1 (some 1) false none

/-- `(\s+)`, group 1: the captured indentation. -/
def grp1Tok : Tok := .cls .ws 1 none false (some 1)

/-- `([^,]+)` capturing the id expression, group 2. -/
def grp2Tok : Tok := .cls .nonComma 1 none false (some 2)

/-- `([^,]+)` capturing the method expression, group 3. -/
def grp3Tok : Tok := .cls .nonComma 1 none false (some 3)

/-- `(.+?)` capturing the params expression, group 4 (lazy, DOTALL). -/
def grp4Tok : Tok := .cls .anyc 1 none true (some 4)

/-- `,?\s*\]\);` — the tail of the pattern after the params group. -/
def tailToks : List Tok :=
  [.cls .comma 0 (some 1) false none, wsTok, .lit [']', ')', ';']]

/-- The pattern after group 1, token by token:
`\$requestObject = RequestObjectData::from\(\[` `\s*` `['"]` `jsonrpc`
`['"]` `\s*` `=>` `\s*` `['"]` `2\.0` `['"]` `\s*` `,` `\s*` `['"]` `id`
`['"]` `\s*` `=>` `\s*` `([^,]+)` `,` `\s*` `['"]` `method` `['"]` `\s*`
`=>` `\s*` `([^,]+)` `,` `\s*` `['"]` `params` `['"]` `\s*` `=>` `\s*`
`(.+?)` `,?` `\s*` `\]\);` (the last three are `tailToks`). -/
def patRest : List Tok :=
  [.lit ("$requestObject = RequestObjectData::from([".data),
   wsTok, qTok, .lit ("jsonrpc".data), qTok, wsTok, .lit ("=>".data), wsTok,
   qTok, .lit ("2.0".data), qTok, wsTok, .lit (",".data), wsTok,
   qTok, .lit ("id".data), qTok, wsTok, .lit ("=>".data), wsTok,
   grp2Tok,
   .lit (",".data), wsTok, qTok, .lit ("method".data), qTok, wsTok,
   .lit ("=>".data), wsTok,
   grp3Tok,
   .lit (",".data), wsTok, qTok, .lit ("params".data), qTok, wsTok,
   .lit ("=>".data), wsTok,
   grp4Tok,
   .cls .comma 0 (some 1) false none, wsTok, .lit [']', ')', ';']]

/-- The fixed pattern of the script as a token list, in concatenation
order. -/
def patToks : List Tok := grp1Tok :: patRest

/-- Captured group `n`, defaulting to the empty string (on a successful
match of `patToks` all four groups are always bound). -/
def grpGet (gs : List (Nat × List Char)) (n : Nat) : List Char :=
  (gs.lookup n).getD []

/-- The replacement callback of the script: builds the nested
`RequestObjectData::from` / `CallData::from` form, prefixing every
emitted line with the captured indentation. -/
def transform_request (indent id_val method params : List Char) : List Char :=
  indent ++ pstr "$requestObject = RequestObjectData::from([\n"
  ++ indent ++ pstr "    #protocol# => VendProtocol::VERSION,\n"
  ++ indent ++ pstr "    #id# => " ++ id_val ++ pstr ",\n"
  ++ indent ++ pstr "    #call# => CallData::from([\n"
  ++ indent ++ pstr "        #function# => " ++ method ++ pstr ",\n"
  ++ indent ++ pstr "        #arguments# => " ++ params ++ pstr ",\n"
  ++ indent ++ pstr "    ]),\n"
  ++ indent ++ pstr "]);"

/-- Replacement text for a match, from its group bindings. -/
def rep (gs : List (Nat × List Char)) : List Char :=
  transform_request (grpGet gs 1) (grpGet gs 2) (grpGet gs 3) (grpGet gs 4)

/-- `re.sub` scan, with a fuel parameter to make the recursion
structural (so that it evaluates inside the kernel): at each position
try the pattern; on a match emit the replacement and resume after the
match, otherwise emit one character and advance.  A successful match
always consumes at least one character (`matchToks_patToks_consumes`
below), so with `fuel ≥ s.length` the fuel never runs out. -/
def subGoF : Nat → List Char → List Char
  | _, [] => []
  | 0, s => s
  | fuel + 1, c :: rest =>
      match matchToks patToks (c :: rest) with
      | none => c :: subGoF fuel rest
      | some (gs, r) => rep gs ++ subGoF fuel r

/-- The whole textual transform of the script:
`re.sub(pattern, transform_request, content, flags=re.MULTILINE | re.DOTALL)`.
(`re.MULTILINE` is inert: the pattern contains no anchors.) -/
def re_sub (content : List Char) : List Char := subGoF content.length content

/-- The file state seen by the script: the content of the hardcoded
target path (if the file exists) and its access rights. -/
structure FS where
  content : Option (List Char)
  readable : Bool
  writable : Bool

/-- Shallow embedding of the whole script as explicit state passing:
`open(..., 'r')`/`f.read()` raise (uncaught) when the file is missing or
unreadable; then the single `re.sub` pass; then `open(..., 'w')` raises
before truncating when the file is unwritable; on success the file is
overwritten with the transformed content and the fixed message
`Transformation complete!` is printed.  An error propagates the
(unchanged) file state; nothing is caught, translated or retried. -/
def script (fs : FS) : Except FS (FS × List Char) :=
  match fs.content, fs.readable with
  | none, _ => .error fs
  | some _, false => .error fs
  | some c, true =>
      if fs.writable then
        .ok ({ fs with content := some (re_sub c) }, "Transformation complete!".data)
      else .error fs

/-- No match of the pattern starts at any position inside `a` when the
text continues with `t`: the scan of `re.sub` copies `a` verbatim. -/
def noMatchAlong (a t : List Char) : Prop :=
  ∀ i, i < a.length → matchToks patToks (a.drop i ++ t) = none

instance noMatchAlong.decidable (a t : List Char) : Decidable (noMatchAlong a t) :=
  Nat.decidableBallLT a.length (fun i _ => matchToks patToks (a.drop i ++ t) = none)

/-- `true` when the first character of `r` (if any) is outside class `c`:
a greedy run of `c` cannot extend into `r`. -/
def headNotMem (c : CC) (r : List Char) : Bool :=
  match r with
  | [] => true
  | a :: _ => !(c.mem a)

/-- Text assembled from a list of segments `(gap, groups, matched span)`
followed by a final `post`: the decomposition of an input along the
matches the scan finds. -/
def chunksText : List (List Char × List (Nat × List Char) × List Char) → List Char → List Char
  | [], post => post
  | (gap, _, span) :: ps, post => gap ++ (span ++ chunksText ps post)

/-- The corresponding output: each matched span replaced independently by
the replacement generated from its own groups, gaps and tail untouched. -/
def chunksOut : List (List Char × List (Nat × List Char) × List Char) → List Char → List Char
  | [], post => post
  | (gap, gs, _) :: ps, post => gap ++ (rep gs ++ chunksOut ps post)

/-- The decomposition is faithful to the scan: no match starts inside a
gap, each span is exactly a match (with the recorded groups) of the text
from its own start, and nothing matches in the tail. -/
def GoodDecomp : List (List Char × List (Nat × List Char) × List Char) → List Char → Prop
  | [], post => noMatchAlong post []
  | (gap, gs, span) :: ps, post =>
      noMatchAlong gap (span ++ chunksText ps post)
      ∧ matchToks patToks (span ++ chunksText ps post) = some (gs, chunksText ps post)
      ∧ GoodDecomp ps post

/-- A canonical well-formed call site, in the exact association in which
the pattern consumes it: indentation, the fixed call-opening text with
single-quoted keys and single spaces, the three captured expressions and
an arbitrary tail `tl` (the text from just after the params expression).
`matchToks_callSite` below proves it equals
`ind ++ "$requestObject = RequestObjectData::from(['jsonrpc' => '2.0', 'id' => " ++ idv ++ ", 'method' => " ++ mth ++ ", 'params' => " ++ prm ++ tl`
(see `callSiteTail_example`). -/
def callSiteTail (ind idv mth prm tl : List Char) : List Char :=
  ind ++ ("$requestObject = RequestObjectData::from([".data ++ (qc :: (
    "jsonrpc".data ++ (qc :: (" ".data ++ ("=>".data ++ (" ".data ++ (
    qc :: ("2.0".data ++ (qc :: (",".data ++ (" ".data ++ (qc :: (
    "id".data ++ (qc :: (" ".data ++ ("=>".data ++ (" ".data ++ (idv ++ (
    ",".data ++ (" ".data ++ (qc :: ("method".data ++ (qc :: (" ".data ++ (
    "=>".data ++ (" ".data ++ (mth ++ (",".data ++ (" ".data ++ (qc :: (
    "params".data ++ (qc :: (" ".data ++ ("=>".data ++ (" ".data ++ (
    prm ++ tl)))))))))))))))))))))))))))))))))))))

/-- Input of the concrete example of the spec: a four-space-indented call
with id `$id`, method `'foo'`, params `$args`. -/
def exampleInput : List Char :=
  pstr "    $requestObject = RequestObjectData::from([#jsonrpc# => #2.0#, #id# => $id, #method# => #foo#, #params# => $args]);"

/-- Input whose single well-formed call carries, inside a string literal
in its params expression, the text of a second (unterminated) call: the
replacement re-emits that text followed by the template's own `]),`/`]);`
lines, which completes a fresh match on the second pass. -/
def smuggleInput : List Char :=
  pstr " $requestObject = RequestObjectData::from([#jsonrpc# => #2.0#, #id# => 1, #method# => m, #params# => \" $requestObject = RequestObjectData::from([#jsonrpc# => #2.0#, #id# => 2, #method# => n, #params# => x\"]);"

/-- A call site with mismatched brackets (no `]);` of its own) followed by
an unrelated `]);` later in the text: under `re.DOTALL` the lazy params
group runs across the line break and the unrelated closer completes a
match. -/
def unclosedInput : List Char :=
  pstr "  $requestObject = RequestObjectData::from([#jsonrpc# => #2.0#, #id# => 7, #method# => m, #params# => x;\nother(]);"

/-- An otherwise well-formed call site whose id expression contains
commas (and, inside it, `'method' =>` / `'params' =>` text): the
comma-free id group cannot capture the whole id expression, but the
pattern still matches with a shorter id capture. -/
def commaIdInput : List Char :=
  pstr " $requestObject = RequestObjectData::from([#jsonrpc# => #2.0#, #id# => A, #method# => B, #params# => C, #method# => m2, #params# => p2]);"

/-- An otherwise well-formed call site whose id expression is
`foo(1, 2)`: the comma makes the whole pattern fail here. -/
def fnIdInput : List Char :=
  pstr " $requestObject = RequestObjectData::from([#jsonrpc# => #2.0#, #id# => foo(1, 2), #method# => m, #params# => p]);"

/-! ### Generic facts about the backtracking search -/

theorem firstSome_cons_some {α β : Type} {a : α} {l : List α} {f : α → Option β} {b : β}
    (h : f a = some b) : firstSome (a :: l) f = some b := by
  simp [firstSome, h]

theorem firstSome_eq_some {α β : Type} {l : List α} {f : α → Option β} {b : β}
    (h : firstSome l f = some b) : ∃ a ∈ l, f a = some b := by
  induction l with
  | nil => simp [firstSome] at h
  | cons a as ih =>
    cases hfa : f a with
    | some b2 =>
      refine ⟨a, by simp, ?_⟩
      simp [firstSome, hfa] at h
      simp [hfa, h]
    | none =>
      simp [firstSome, hfa] at h
      obtain ⟨x, hx, hfx⟩ := ih h
      exact ⟨x, by simp [hx], hfx⟩

theorem firstSome_range' {β : Type} {f : Nat → Option β} {b : β} :
    ∀ (n lo k : Nat), lo ≤ k → k < lo + n → (∀ j, lo ≤ j → j < k → f j = none) →
      f k = some b → firstSome (List.range' lo n) f = some b := by
  intro n
  induction n with
  | zero => intro lo k h1 h2 _ _; omega
  | succ n ih =>
    intro lo k h1 h2 h3 h4
    rw [List.range'_succ]
    rcases Nat.eq_or_lt_of_le h1 with heq | hlt
    · subst heq; exact firstSome_cons_some h4
    · have hlo : f lo = none := h3 lo (Nat.le_refl lo) hlt
      simp only [firstSome, hlo]
      exact ih (lo + 1) k hlt (by omega) (fun j hj1 hj2 => h3 j (by omega) hj2) h4

theorem firstSome_reverse_range'_top {β : Type} {f : Nat → Option β} {b : β}
    (lo k : Nat) (h1 : lo ≤ k) (h4 : f k = some b) :
    firstSome (List.range' lo (k + 1 - lo)).reverse f = some b := by
  have hn : k + 1 - lo = (k - lo) + 1 := by omega
  rw [hn, List.range'_concat]
  have hx : lo + 1 * (k - lo) = k := by omega
  rw [hx]
  simp only [List.reverse_append, List.reverse_cons, List.reverse_nil, List.nil_append,
    List.singleton_append]
  exact firstSome_cons_some h4

/-! ### Small list facts -/

theorem takeWhile_len_le {α : Type} (p : α → Bool) (l : List α) :
    (l.takeWhile p).length ≤ l.length := by
  induction l with
  | nil => simp
  | cons a l ih =>
    by_cases h : p a
    · simp only [List.takeWhile_cons, h, if_true, List.length_cons]
      omega
    · simp [List.takeWhile_cons, h]

theorem drop_append_le {α : Type} {l₁ l₂ : List α} :
    ∀ {n : Nat}, n ≤ l₁.length → (l₁ ++ l₂).drop n = l₁.drop n ++ l₂ := by
  induction l₁ with
  | nil =>
    intro n h
    have : n = 0 := by simpa using h
    subst this
    simp
  | cons a l ih =>
    intro n h
    cases n with
    | zero => simp
    | succ m => simpa using ih (by simpa using h)

theorem take_mem_of_le_takeWhile {α : Type} {p : α → Bool} :
    ∀ (s : List α) (k : Nat), k ≤ (s.takeWhile p).length → ∀ a ∈ s.take k, p a = true := by
  intro s
  induction s with
  | nil => intro k _ a ha; simp at ha
  | cons c s ih =>
    intro k hk a ha
    by_cases hp : p c
    · cases k with
      | zero => simp at ha
      | succ m =>
        simp [List.takeWhile_cons, hp] at hk
        simp [List.take_succ_cons] at ha
        rcases ha with rfl | ha
        · exact hp
        · exact ih m (by omega) a ha
    · simp [List.takeWhile_cons, hp] at hk
      subst hk
      simp at ha

/-! ### Stepping the matcher through the pattern -/

theorem matchToks_lit_cons (l : List Char) (ts : List Tok) (s : List Char) :
    matchToks (.lit l :: ts) (l ++ s) = matchToks ts s := by
  have hpre : l.isPrefixOf (l ++ s) = true := by
    rw [List.isPrefixOf_iff_prefix]
    exact List.prefix_append l s
  simp [matchToks, hpre, List.drop_left]

theorem matchToks_cls_one (c : CC) (ts : List Tok) (ch : Char) (s : List Char)
    (res : List (Nat × List Char) × List Char)
    (hm : c.mem ch = true) (h : matchToks ts s = some res) :
    matchToks (.cls c 1 (some 1) false none :: ts) (ch :: s) = some res := by
  have hcand : candList c 1 (some 1) false (ch :: s) = [1] := by
    simp [candList, List.takeWhile_cons, hm]
  rw [matchToks, hcand]
  apply firstSome_cons_some
  simp [h, addG]

theorem matchToks_cls_greedy (c : CC) (lo : Nat) (g : Option Nat) (ts : List Tok)
    (w r : List Char) (gs : List (Nat × List Char)) (r2 : List Char)
    (hw : ∀ a ∈ w, c.mem a = true) (hr : headNotMem c r = true) (hlo : lo ≤ w.length)
    (h : matchToks ts r = some (gs, r2)) :
    matchToks (.cls c lo none false g :: ts) (w ++ r) = some (addG g w gs, r2) := by
  have hr0 : r.takeWhile c.mem = [] := by
    cases r with
    | nil => simp
    | cons a r' =>
      have : c.mem a = false := by simpa [headNotMem] using hr
      simp [List.takeWhile_cons, this]
  have hrun : ((w ++ r).takeWhile c.mem).length = w.length := by
    rw [List.takeWhile_append_of_pos hw, hr0]
    simp
  have hcand : candList c lo none false (w ++ r) =
      (List.range' lo (w.length + 1 - lo)).reverse := by
    simp [candList, hrun]
  rw [matchToks, hcand]
  apply firstSome_reverse_range'_top lo w.length hlo
  simp [List.drop_left, List.take_left, h]

theorem matchToks_ws_nil (ts : List Tok) (s : List Char)
    (res : List (Nat × List Char) × List Char)
    (hr : headNotMem .ws s = true) (h : matchToks ts s = some res) :
    matchToks (wsTok :: ts) s = some res := by
  have hr0 : s.takeWhile (CC.mem .ws) = [] := by
    cases s with
    | nil => simp
    | cons a s' =>
      have : CC.mem CC.ws a = false := by simpa [headNotMem] using hr
      simp [List.takeWhile_cons, this]
  have hcand : candList .ws 0 none false s = [0] := by
    simp [candList, hr0]
  rw [wsTok, matchToks, hcand]
  apply firstSome_cons_some
  simp [h, addG]

theorem matchToks_cls_lazy4 (ts : List Tok) (prm u : List Char)
    (gs : List (Nat × List Char)) (r2 : List Char)
    (hne : prm ≠ [])
    (hstop : ∀ j, 1 ≤ j → j < prm.length → matchToks ts (prm.drop j ++ u) = none)
    (h : matchToks ts u = some (gs, r2)) :
    matchToks (grp4Tok :: ts) (prm ++ u) = some ((4, prm) :: gs, r2) := by
  have hall : ∀ l : List Char, l.takeWhile (CC.mem .anyc) = l := by
    intro l; induction l with
    | nil => simp
    | cons a l ih => simp [List.takeWhile_cons, CC.mem, ih]
  have hcand : candList .anyc 1 none true (prm ++ u) =
      List.range' 1 (prm.length + u.length) := by
    simp [candList, hall]
  rw [grp4Tok, matchToks, hcand]
  have hlen : 0 < prm.length := List.length_pos.mpr hne
  apply firstSome_range' (prm.length + u.length) 1 prm.length hlen (by omega)
  · intro j hj1 hj2
    rw [drop_append_le (by omega)]
    simp [hstop j hj1 hj2]
  · simp [List.drop_left, List.take_left, h, addG]


theorem pyWs_not_comma {a : Char} (h : isPyWs a = true) : CC.mem .comma a = false := by
  simp only [isPyWs, Bool.or_eq_true, decide_eq_true_eq] at h
  rcases h with ((((h | h) | h) | h) | h) | h <;> subst h <;> decide

theorem headNotMem_comma_of_ws {w r : List Char} (hw : ∀ a ∈ w, isPyWs a = true)
    (hr : headNotMem .comma r = true) : headNotMem .comma (w ++ r) = true := by
  cases w with
  | nil => simpa using hr
  | cons a w' =>
    have := pyWs_not_comma (hw a (by simp))
    simp [headNotMem, this]

theorem takeWhile_comma_nil {s : List Char} (h : headNotMem .comma s = true) :
    s.takeWhile (CC.mem .comma) = [] := by
  cases s with
  | nil => simp
  | cons a s' =>
    have : CC.mem CC.comma a = false := by simpa [headNotMem] using h
    simp [List.takeWhile_cons, this]

/-- Matching the suffix `\s*\]\);` on a whitespace run `w` followed by
the closer: `post` is left over. -/
theorem matchToks_ws_closer (w post : List Char) (hw : ∀ a ∈ w, isPyWs a = true) :
    matchToks [wsTok, .lit [']', ')', ';']] (w ++ (']' :: ')' :: ';' :: post))
      = some ([], post) := by
  have htail : matchToks [Tok.lit [']', ')', ';']] (']' :: ')' :: ';' :: post)
      = some ([], post) := by
    rw [show (']' :: ')' :: ';' :: post) = [']', ')', ';'] ++ post from rfl,
      matchToks_lit_cons]
    rfl
  have := matchToks_cls_greedy .ws 0 none [.lit [']', ')', ';']]
    w (']' :: ')' :: ';' :: post) [] post hw (by rfl) (by omega) htail
  simpa [wsTok, addG] using this

/-- Matching the pattern tail `,?\s*\]\);` when the text has the trailing
comma: the optional comma is consumed (greedily, first candidate), then
the whitespace run `w`, then the literal closer; `post` is left over. -/
theorem matchToks_tail_comma (w post : List Char) (hw : ∀ a ∈ w, isPyWs a = true) :
    matchToks tailToks (',' :: (w ++ (']' :: ')' :: ';' :: post)))
      = some ([], post) := by
  have hrest : headNotMem .comma (w ++ (']' :: ')' :: ';' :: post)) = true := by
    apply headNotMem_comma_of_ws hw
    rfl
  have hcand : candList .comma 0 (some 1) false
      (',' :: (w ++ (']' :: ')' :: ';' :: post))) = [1, 0] := by
    simp [candList, List.takeWhile_cons, CC.mem, takeWhile_comma_nil hrest]
    rfl
  rw [tailToks, matchToks, hcand]
  apply firstSome_cons_some
  simp [matchToks_ws_closer w post hw, addG]

/-- Matching the pattern tail `,?\s*\]\);` when the text has no trailing
comma: the optional comma matches zero characters. -/
theorem matchToks_tail_nocomma (w post : List Char) (hw : ∀ a ∈ w, isPyWs a = true) :
    matchToks tailToks (w ++ (']' :: ')' :: ';' :: post)) = some ([], post) := by
  have hrest : headNotMem .comma (w ++ (']' :: ')' :: ';' :: post)) = true := by
    apply headNotMem_comma_of_ws hw
    rfl
  have hcand : candList .comma 0 (some 1) false
      (w ++ (']' :: ')' :: ';' :: post)) = [0] := by
    simp [candList, takeWhile_comma_nil hrest]
  rw [tailToks, matchToks, hcand]
  apply firstSome_cons_some
  simp [matchToks_ws_closer w post hw, addG]

/-! ### A match never over-runs and always consumes -/

theorem matchToks_le : ∀ (ts : List Tok) (s : List Char) (gs : List (Nat × List Char))
    (r : List Char), matchToks ts s = some (gs, r) → r.length ≤ s.length := by
  intro ts
  induction ts with
  | nil =>
    intro s gs r h
    simp only [matchToks, Option.some.injEq, Prod.mk.injEq] at h
    obtain ⟨h1, h2⟩ := h
    subst h2
    exact Nat.le_refl _
  | cons t ts ih =>
    intro s gs r h
    cases t with
    | lit l =>
      rw [matchToks] at h
      split at h
      · have := ih _ _ _ h
        have h2 := List.length_drop l.length s
        omega
      · exact absurd h (by simp)
    | cls c lo hi lz g =>
      rw [matchToks] at h
      obtain ⟨k, _, hfk⟩ := firstSome_eq_some h
      cases hres : matchToks ts (s.drop k) with
      | none => simp [hres] at hfk
      | some p =>
        obtain ⟨gs', r'⟩ := p
        simp only [hres, Option.some.injEq, Prod.mk.injEq] at hfk
        obtain ⟨-, hr2⟩ := hfk
        subst hr2
        have := ih _ _ _ hres
        have h2 := List.length_drop k s
        omega

theorem matchToks_patToks_nil : matchToks patToks [] = none := by decide

/-- A successful match of the whole pattern consumes at least one
character: group 1 is `(\s+)`, matching at least one whitespace
character.  Hence the `re.sub` scan always makes progress. -/
theorem matchToks_patToks_consumes (s : List Char) (gs : List (Nat × List Char))
    (r : List Char) (h : matchToks patToks s = some (gs, r)) : r.length < s.length := by
  rw [patToks, grp1Tok, matchToks] at h
  obtain ⟨k, hk, hfk⟩ := firstSome_eq_some h
  have hkr : 1 ≤ k ∧ k ≤ s.length := by
    have hk2 : k ∈ List.range' 1 ((s.takeWhile (CC.mem .ws)).length + 1 - 1) := by
      simpa [candList] using hk
    rcases List.mem_range'.mp hk2 with ⟨i, hi, rfl⟩
    have := takeWhile_len_le (CC.mem .ws) s
    omega
  cases hres : matchToks patRest (s.drop k) with
  | none => simp [hres] at hfk
  | some p =>
    obtain ⟨gs', r'⟩ := p
    simp only [hres, Option.some.injEq, Prod.mk.injEq] at hfk
    obtain ⟨-, hr2⟩ := hfk
    subst hr2
    have := matchToks_le _ _ _ _ hres
    have h2 := List.length_drop k s
    omega

/-! ### The `re.sub` scan -/

theorem subGoF_nil (f : Nat) : subGoF f [] = [] := by cases f <;> rfl

/-- The fuel is irrelevant as long as it dominates the text length. -/
theorem subGoF_fuel : ∀ (f : Nat) (s : List Char), s.length ≤ f →
    subGoF f s = subGoF s.length s := by
  intro f
  induction f using Nat.strong_induction_on with
  | _ f ih =>
    intro s hs
    cases s with
    | nil => simp [subGoF_nil]
    | cons c rest =>
      cases f with
      | zero => simp at hs
      | succ g =>
        have hrest : rest.length ≤ g := by
          simp only [List.length_cons] at hs
          omega
        cases hm : matchToks patToks (c :: rest) with
        | none =>
          simp only [subGoF, hm, List.length_cons]
          rw [ih g (by omega) rest hrest]
        | some p =>
          obtain ⟨gs, r⟩ := p
          have hcons := matchToks_patToks_consumes _ _ _ hm
          simp only [List.length_cons] at hcons
          simp only [subGoF, hm, List.length_cons]
          rw [ih g (by omega) r (by omega), ih rest.length (by omega) r (by omega)]

theorem re_sub_nil : re_sub [] = [] := rfl

/-- Text along which no match starts is copied verbatim by the scan. -/
theorem re_sub_append (a t : List Char) (h : noMatchAlong a t) :
    re_sub (a ++ t) = a ++ re_sub t := by
  induction a with
  | nil => simp
  | cons c a ih =>
    have h0 : matchToks patToks (c :: (a ++ t)) = none := by
      have := h 0 (by simp)
      simpa using this
    have hrec : noMatchAlong a t := by
      intro i hi
      have := h (i + 1) (by simp only [List.length_cons]; omega)
      simpa using this
    show subGoF ((c :: a) ++ t).length ((c :: a) ++ t) = (c :: a) ++ re_sub t
    simp only [List.cons_append, List.length_cons]
    rw [subGoF, h0]
    exact congrArg (c :: ·) (ih hrec)

/-- A match at the current position is replaced and the scan resumes
after it. -/
theorem re_sub_match (s : List Char) (gs : List (Nat × List Char)) (r : List Char)
    (h : matchToks patToks s = some (gs, r)) :
    re_sub s = rep gs ++ re_sub r := by
  cases s with
  | nil => rw [matchToks_patToks_nil] at h; exact absurd h (by simp)
  | cons c rest =>
    have hcons := matchToks_patToks_consumes _ _ _ h
    simp only [List.length_cons] at hcons
    show subGoF ((c :: rest)).length (c :: rest) = rep gs ++ re_sub r
    simp only [List.length_cons]
    rw [subGoF, h]
    show rep gs ++ subGoF rest.length r = rep gs ++ re_sub r
    rw [subGoF_fuel rest.length r (by omega)]
    rfl

/-- If no position of `s` starts a match, the transform is the
identity. -/
theorem re_sub_nomatch (s : List Char) (h : noMatchAlong s []) : re_sub s = s := by
  have := re_sub_append s [] h
  simpa [re_sub_nil] using this

/-! ### What a match can capture and must contain -/

theorem candList_le {c : CC} {lo : Nat} {hi : Option Nat} {lz : Bool} {s : List Char}
    {k : Nat} (hk : k ∈ candList c lo hi lz s) :
    k ≤ (s.takeWhile (CC.mem c)).length := by
  have hk2 : k ∈ List.range' lo
      (min ((s.takeWhile (CC.mem c)).length)
        (hi.getD ((s.takeWhile (CC.mem c)).length)) + 1 - lo) := by
    by_cases hlz : lz
    · simpa [candList, hlz] using hk
    · simpa [candList, hlz] using hk
  rcases List.mem_range'.mp hk2 with ⟨i, hi2, rfl⟩
  have := Nat.min_le_left ((s.takeWhile (CC.mem c)).length)
    (hi.getD ((s.takeWhile (CC.mem c)).length))
  omega

/-- Every binding a match records comes from a class token of the
pattern with that group number, and the captured string consists only of
characters of that token's class. -/
theorem matchToks_grp_mem : ∀ (ts : List Tok) (s : List Char)
    (gs : List (Nat × List Char)) (r : List Char),
    matchToks ts s = some (gs, r) → ∀ n g, (n, g) ∈ gs →
      ∃ c lo hi lz, Tok.cls c lo hi lz (some n) ∈ ts ∧ ∀ a ∈ g, CC.mem c a = true := by
  intro ts
  induction ts with
  | nil =>
    intro s gs r h n g hmem
    simp only [matchToks, Option.some.injEq, Prod.mk.injEq] at h
    obtain ⟨h1, -⟩ := h
    subst h1
    simp at hmem
  | cons t ts ih =>
    intro s gs r h n g hmem
    cases t with
    | lit l =>
      rw [matchToks] at h
      split at h
      · obtain ⟨c, lo, hi, lz, htok, hcls⟩ := ih _ _ _ h n g hmem
        exact ⟨c, lo, hi, lz, List.mem_cons_of_mem _ htok, hcls⟩
      · exact absurd h (by simp)
    | cls c lo hi lz grp =>
      rw [matchToks] at h
      obtain ⟨k, hk, hfk⟩ := firstSome_eq_some h
      cases hres : matchToks ts (s.drop k) with
      | none => simp [hres] at hfk
      | some p =>
        obtain ⟨gs', r'⟩ := p
        simp only [hres, Option.some.injEq, Prod.mk.injEq] at hfk
        obtain ⟨hgs, -⟩ := hfk
        subst hgs
        cases grp with
        | none =>
          obtain ⟨c2, lo2, hi2, lz2, htok, hcls⟩ := ih _ _ _ hres n g (by simpa [addG] using hmem)
          exact ⟨c2, lo2, hi2, lz2, List.mem_cons_of_mem _ htok, hcls⟩
        | some m =>
          simp only [addG, List.mem_cons, Prod.mk.injEq] at hmem
          rcases hmem with ⟨rfl, rfl⟩ | hmem
          · exact ⟨c, lo, hi, lz, List.mem_cons_self _ _,
              take_mem_of_le_takeWhile s k (candList_le hk)⟩
          · obtain ⟨c2, lo2, hi2, lz2, htok, hcls⟩ := ih _ _ _ hres n g hmem
            exact ⟨c2, lo2, hi2, lz2, List.mem_cons_of_mem _ htok, hcls⟩

/-- Every literal token of the pattern occurs verbatim inside any text
the pattern matches. -/
theorem matchToks_lit_infix : ∀ (ts : List Tok) (s : List Char)
    (gs : List (Nat × List Char)) (r : List Char),
    matchToks ts s = some (gs, r) → ∀ l, Tok.lit l ∈ ts → l <:+: s := by
  intro ts
  induction ts with
  | nil => intro s gs r h l hl; simp at hl
  | cons t ts ih =>
    intro s gs r h l hl
    cases t with
    | lit l2 =>
      rw [matchToks] at h
      split at h
      case isTrue hpre =>
        rcases List.mem_cons.mp hl with heq | hl2
        · obtain rfl : l = l2 := by injection heq
          exact (List.isPrefixOf_iff_prefix.mp hpre).isInfix
        · exact (ih _ _ _ h l hl2).trans (List.drop_suffix _ _).isInfix
      case isFalse => exact absurd h (by simp)
    | cls c lo hi lz grp =>
      rw [matchToks] at h
      obtain ⟨k, hk, hfk⟩ := firstSome_eq_some h
      cases hres : matchToks ts (s.drop k) with
      | none => simp [hres] at hfk
      | some p =>
        rcases List.mem_cons.mp hl with heq | hl2
        · exact absurd heq (by simp)
        · exact (ih _ _ _ hres l hl2).trans (List.drop_suffix _ _).isInfix

/-! ### Replacing a list of matches independently -/

/-- The scan of a text decomposed along its matches replaces every
matched span independently: gaps and tail pass through unchanged, each
span becomes the replacement generated from its own groups. -/
theorem re_sub_decomp : ∀ (parts : List (List Char × List (Nat × List Char) × List Char))
    (post : List Char), GoodDecomp parts post →
    re_sub (chunksText parts post) = chunksOut parts post := by
  intro parts
  induction parts with
  | nil =>
    intro post h
    exact re_sub_nomatch post h
  | cons p ps ih =>
    obtain ⟨gap, gs, span⟩ := p
    intro post h
    obtain ⟨h1, h2, h3⟩ := h
    show re_sub (gap ++ (span ++ chunksText ps post)) = gap ++ (rep gs ++ chunksOut ps post)
    rw [re_sub_append _ _ h1, re_sub_match _ _ _ h2, ih post h3]

theorem headNotMem_append {c : CC} {v r : List Char} (hv : v ≠ [])
    (h : headNotMem c v = true) : headNotMem c (v ++ r) = true := by
  cases v with
  | nil => exact absurd rfl hv
  | cons a v' => simpa [headNotMem] using h

/-- The pattern matches a canonical well-formed call site, capturing the
indentation, id, method and params expressions, provided: the captured
expressions are nonempty, id and method contain no comma, none of the
three starts with whitespace (otherwise `\s*` would absorb the start),
the lazy params capture has no earlier stopping point, and the tail
(everything from just after the params expression) itself matches
`,?\s*\]\);` leaving `post`. -/
theorem matchToks_callSite (ind idv mth prm tl post : List Char)
    (hind : ind ≠ []) (hindw : ∀ a ∈ ind, isPyWs a = true)
    (hidv : idv ≠ []) (hidvc : ∀ a ∈ idv, a ≠ ',')
    (hidvh : headNotMem .ws idv = true)
    (hmth : mth ≠ []) (hmthc : ∀ a ∈ mth, a ≠ ',')
    (hmthh : headNotMem .ws mth = true)
    (hprm : prm ≠ []) (hprmh : headNotMem .ws prm = true)
    (hstop : ∀ j, 1 ≤ j → j < prm.length → matchToks tailToks (prm.drop j ++ tl) = none)
    (htail : matchToks tailToks tl = some ([], post)) :
    matchToks patToks (callSiteTail ind idv mth prm tl)
      = some ([(1, ind), (2, idv), (3, mth), (4, prm)], post) := by
  have hindw2 : ∀ a ∈ ind, CC.mem .ws a = true := hindw
  have hidvc2 : ∀ a ∈ idv, CC.mem .nonComma a = true := by
    intro a ha; simp [CC.mem, hidvc a ha]
  have hmthc2 : ∀ a ∈ mth, CC.mem .nonComma a = true := by
    intro a ha; simp [CC.mem, hmthc a ha]
  have hsp : ∀ a ∈ " ".data, CC.mem .ws a = true := by decide
  rw [callSiteTail, patToks]
  -- group 1: the indentation
  apply matchToks_cls_greedy
  · exact hindw2
  · rfl
  · exact List.length_pos.mpr hind
  rw [patRest]
  rw [matchToks_lit_cons]
  apply matchToks_ws_nil _ _ _ (by rfl)
  apply matchToks_cls_one _ _ _ _ _ (by rfl)
  rw [matchToks_lit_cons]
  apply matchToks_cls_one _ _ _ _ _ (by rfl)
  apply matchToks_cls_greedy _ _ _ _ _ _ _ _ hsp (by rfl) (by decide)
  rw [matchToks_lit_cons]
  apply matchToks_cls_greedy _ _ _ _ _ _ _ _ hsp (by rfl) (by decide)
  apply matchToks_cls_one _ _ _ _ _ (by rfl)
  rw [matchToks_lit_cons]
  apply matchToks_cls_one _ _ _ _ _ (by rfl)
  apply matchToks_ws_nil _ _ _ (by rfl)
  rw [matchToks_lit_cons]
  apply matchToks_cls_greedy _ _ _ _ _ _ _ _ hsp (by rfl) (by decide)
  apply matchToks_cls_one _ _ _ _ _ (by rfl)
  rw [matchToks_lit_cons]
  apply matchToks_cls_one _ _ _ _ _ (by rfl)
  apply matchToks_cls_greedy _ _ _ _ _ _ _ _ hsp (by rfl) (by decide)
  rw [matchToks_lit_cons]
  apply matchToks_cls_greedy _ _ _ _ _ _ _ _ hsp (headNotMem_append hidv hidvh) (by decide)
  -- group 2: the id expression
  apply matchToks_cls_greedy
  · exact hidvc2
  · rfl
  · exact List.length_pos.mpr hidv
  rw [matchToks_lit_cons]
  apply matchToks_cls_greedy _ _ _ _ _ _ _ _ hsp (by rfl) (by decide)
  apply matchToks_cls_one _ _ _ _ _ (by rfl)
  rw [matchToks_lit_cons]
  apply matchToks_cls_one _ _ _ _ _ (by rfl)
  apply matchToks_cls_greedy _ _ _ _ _ _ _ _ hsp (by rfl) (by decide)
  rw [matchToks_lit_cons]
  apply matchToks_cls_greedy _ _ _ _ _ _ _ _ hsp (headNotMem_append hmth hmthh) (by decide)
  -- group 3: the method expression
  apply matchToks_cls_greedy
  · exact hmthc2
  · rfl
  · exact List.length_pos.mpr hmth
  rw [matchToks_lit_cons]
  apply matchToks_cls_greedy _ _ _ _ _ _ _ _ hsp (by rfl) (by decide)
  apply matchToks_cls_one _ _ _ _ _ (by rfl)
  rw [matchToks_lit_cons]
  apply matchToks_cls_one _ _ _ _ _ (by rfl)
  apply matchToks_cls_greedy _ _ _ _ _ _ _ _ hsp (by rfl) (by decide)
  rw [matchToks_lit_cons]
  apply matchToks_cls_greedy _ _ _ _ _ _ _ _ hsp (headNotMem_append hprm hprmh) (by decide)
  -- group 4: the params expression, then the tail
  exact matchToks_cls_lazy4 tailToks prm tl [] post hprm hstop htail

/-! ### Sanity: the canonical call site in readable form -/

/-- `callSiteTail` at sample arguments spells the expected source line. -/
theorem callSiteTail_example :
    callSiteTail " ".data "$id".data (pstr "#foo#") "$args".data ("]);".data ++ "\n".data)
      = pstr " $requestObject = RequestObjectData::from([#jsonrpc# => #2.0#, #id# => $id, #method# => #foo#, #params# => $args]);\n" := by
  decide

/-! ### The claims -/

/-- C1: an input that decomposes as `pre ++ rest ++ post` where no match
starts inside `pre`, the pattern matches exactly at the start of `rest`
(capturing indentation, id, method, params and leaving `post`), and no
match starts anywhere in `post`, is rewritten to `pre`, then the nested
two-object replacement — every emitted line prefixed with the captured
group-1 whitespace — then `post`, byte for byte. -/
theorem claim_C1_single_match (pre rest post ind idv mth prm : List Char)
    (hpre : noMatchAlong pre rest)
    (hm : matchToks patToks rest = some ([(1, ind), (2, idv), (3, mth), (4, prm)], post))
    (hpost : noMatchAlong post []) :
    re_sub (pre ++ rest) = pre ++ (transform_request ind idv mth prm ++ post)
    ∧ transform_request ind idv mth prm =
        ind ++ pstr "$requestObject = RequestObjectData::from([\n"
        ++ ind ++ pstr "    #protocol# => VendProtocol::VERSION,\n"
        ++ ind ++ pstr "    #id# => " ++ idv ++ pstr ",\n"
        ++ ind ++ pstr "    #call# => CallData::from([\n"
        ++ ind ++ pstr "        #function# => " ++ mth ++ pstr ",\n"
        ++ ind ++ pstr "        #arguments# => " ++ prm ++ pstr ",\n"
        ++ ind ++ pstr "    ]),\n"
        ++ ind ++ pstr "]);" := by
  constructor
  · rw [re_sub_append _ _ hpre, re_sub_match _ _ _ hm, re_sub_nomatch _ hpost]
    rfl
  · rfl

theorem claim_C1_witness :
    noMatchAlong ("<?php $x = 1;".data)
        (pstr " $requestObject = RequestObjectData::from([#jsonrpc# => #2.0#, #id# => 1, #method# => m, #params# => p]);\nmore();")
    ∧ re_sub ("<?php $x = 1;".data
          ++ pstr " $requestObject = RequestObjectData::from([#jsonrpc# => #2.0#, #id# => 1, #method# => m, #params# => p]);\nmore();")
        = "<?php $x = 1;".data
          ++ (transform_request " ".data "1".data "m".data "p".data ++ "\nmore();".data) := by
  refine ⟨by decide, ?_⟩
  exact (claim_C1_single_match "<?php $x = 1;".data _ "\nmore();".data
    " ".data "1".data "m".data "p".data (by decide) (by decide) (by decide)).1

/-- C2: an input that decomposes into two or more matched spans separated
by gaps in which no match starts (and a tail without matches) is
rewritten by replacing every span independently, left to right, with the
replacement generated from that span's own captures; gaps and tail are
untouched, and one replacement never affects another. -/
theorem claim_C2_multiple_matches
    (parts : List (List Char × List (Nat × List Char) × List Char)) (post : List Char)
    (_htwo : 2 ≤ parts.length) (h : GoodDecomp parts post) :
    re_sub (chunksText parts post) = chunksOut parts post :=
  re_sub_decomp parts post h

theorem claim_C2_witness :
    re_sub (chunksText
        [("x();".data,
          [(1, " ".data), (2, "1".data), (3, "m".data), (4, "p".data)],
          pstr " $requestObject = RequestObjectData::from([#jsonrpc# => #2.0#, #id# => 1, #method# => m, #params# => p]);"),
         ("\ngap();".data,
          [(1, " ".data), (2, "2".data), (3, "n".data), (4, "q".data)],
          pstr " $requestObject = RequestObjectData::from([#jsonrpc# => #2.0#, #id# => 2, #method# => n, #params# => q]);")]
        "\n".data)
      = chunksOut
        [("x();".data,
          [(1, " ".data), (2, "1".data), (3, "m".data), (4, "p".data)],
          pstr " $requestObject = RequestObjectData::from([#jsonrpc# => #2.0#, #id# => 1, #method# => m, #params# => p]);"),
         ("\ngap();".data,
          [(1, " ".data), (2, "2".data), (3, "n".data), (4, "q".data)],
          pstr " $requestObject = RequestObjectData::from([#jsonrpc# => #2.0#, #id# => 2, #method# => n, #params# => q]);")]
        "\n".data := by
  exact claim_C2_multiple_matches _ _ (by decide)
    ⟨by decide, by decide, by decide, by decide,
      (by decide : noMatchAlong "\n".data [])⟩

/-- C3 fails as stated: the transform is not idempotent on every input.
On `smuggleInput` the single match's params capture carries the text of a
second call head inside a string literal; the replacement re-emits it
followed by the template's own `]),`/`]);` lines, which the lazy
DOTALL params group of a second pass completes into a fresh match. -/
theorem claim_C3_counterexample :
    re_sub (re_sub smuggleInput) ≠ re_sub smuggleInput := by decide

/-- C3 amended: the second pass is a no-op exactly because the pattern no
longer matches anywhere in the first pass's output — which holds
whenever no captured group smuggles pattern text into the replacement,
but not unconditionally. -/
theorem claim_C3_idempotent_of_nomatch (s : List Char)
    (h : noMatchAlong (re_sub s) []) :
    re_sub (re_sub s) = re_sub s :=
  re_sub_nomatch _ h

theorem claim_C3_witness :
    noMatchAlong (re_sub exampleInput) []
    ∧ re_sub (re_sub exampleInput) = re_sub exampleInput := by
  refine ⟨by decide, ?_⟩
  exact claim_C3_idempotent_of_nomatch exampleInput (by decide)

/-- C4 fails as stated for mismatched brackets: a call with no `]);` of
its own is still matched when an unrelated `]);` occurs later in the
text — `re.DOTALL` lets the lazy params group run across lines — and the
transform emits mangled output. -/
theorem claim_C4_counterexample :
    re_sub unclosedInput ≠ unclosedInput
    ∧ re_sub unclosedInput =
        pstr "  $requestObject = RequestObjectData::from([\n      #protocol# => VendProtocol::VERSION,\n      #id# => 7,\n      #call# => CallData::from([\n          #function# => m,\n          #arguments# => x;\nother(,\n      ]),\n  ]);" := by
  constructor
  · decide
  · decide

/-- C4 amended: text in which any of the literal fragments required by
the pattern — the `jsonrpc`, `id`, `method`, `params` key names or the
closer `]);` — occurs nowhere cannot match, and the transform leaves it
untouched.  (With the closer present later in the text, a
bracket-mismatched call can match; see the counterexample.) -/
theorem claim_C4_missing_text_untouched (s : List Char)
    (h : ¬ ("jsonrpc".data <:+: s) ∨ ¬ ("id".data <:+: s) ∨ ¬ ("method".data <:+: s)
      ∨ ¬ ("params".data <:+: s) ∨ ¬ ([']', ')', ';'] <:+: s)) :
    re_sub s = s := by
  apply re_sub_nomatch
  intro i hi
  cases hmm : matchToks patToks (s.drop i ++ []) with
  | none => rfl
  | some p =>
    exfalso
    obtain ⟨gs, r⟩ := p
    have key : ∀ l, Tok.lit l ∈ patToks → l <:+: s := by
      intro l hl
      have h1 := matchToks_lit_infix patToks _ _ _ hmm l hl
      rw [List.append_nil] at h1
      exact h1.trans (List.drop_suffix _ _).isInfix
    rcases h with h | h | h | h | h
    · exact h (key _ (by decide))
    · exact h (key _ (by decide))
    · exact h (key _ (by decide))
    · exact h (key _ (by decide))
    · exact h (key _ (by decide))

theorem claim_C4_witness :
    ¬ ("jsonrpc".data <:+: "hello world".data)
    ∧ re_sub "hello world".data = "hello world".data := by
  refine ⟨by decide, ?_⟩
  exact claim_C4_missing_text_untouched _ (Or.inl (by decide))

/-- C5: when the pattern matches nowhere in the file content, the script
still "succeeds": the file is rewritten with byte-identical content and
the fixed success message is printed — indistinguishable from a
successful transform. -/
theorem claim_C5_zero_match_success (s : List Char) (h : noMatchAlong s []) :
    script ⟨some s, true, true⟩
      = .ok (⟨some s, true, true⟩, "Transformation complete!".data) := by
  simp [script, re_sub_nomatch s h]

theorem claim_C5_witness :
    noMatchAlong "no call sites here".data []
    ∧ script ⟨some "no call sites here".data, true, true⟩
        = .ok (⟨some "no call sites here".data, true, true⟩,
            "Transformation complete!".data) := by
  refine ⟨by decide, ?_⟩
  exact claim_C5_zero_match_success _ (by decide)

/-- C6: on the spec's concrete example — a four-space-indented call with
id `$id`, method `'foo'`, params `$args` — the transform produces
exactly the nested form, the envelope's lines indented four extra
spaces and the `CallData` lines eight. -/
theorem claim_C6_concrete_example :
    re_sub exampleInput =
      pstr "    $requestObject = RequestObjectData::from([\n        #protocol# => VendProtocol::VERSION,\n        #id# => $id,\n        #call# => CallData::from([\n            #function# => #foo#,\n            #arguments# => $args,\n        ]),\n    ]);" := by
  decide

/-- C7: when the file is missing, unreadable, or unwritable, the script
propagates the failure as an uncaught error — nothing is caught,
translated or retried — and the file's content is unchanged (the failed
write aborts before truncation). -/
theorem claim_C7_failure_propagates (fs : FS)
    (h : fs.content = none ∨ fs.readable = false ∨ fs.writable = false) :
    script fs = .error fs := by
  obtain ⟨c, r, w⟩ := fs
  rcases h with h | h | h
  · simp only at h
    subst h
    rfl
  · simp only at h
    subst h
    cases c <;> rfl
  · simp only at h
    subst h
    cases c with
    | none => rfl
    | some s => cases r <;> rfl

theorem claim_C7_witness :
    script ⟨none, true, true⟩ = .error ⟨none, true, true⟩
    ∧ (Except.error (⟨none, true, true⟩ : FS)
        : Except FS (FS × List Char)).isOk = false := by
  refine ⟨?_, rfl⟩
  exact claim_C7_failure_propagates _ (Or.inl rfl)

/-- C8 fails as stated: an otherwise well-formed call site whose id
expression contains commas is not always left unchanged.  On
`commaIdInput` the id expression `A, 'method' => B, 'params' => C` is
re-parsed — the pattern matches with the shorter comma-free id capture
`A` (and `B` as method, everything up to the real closer as params) —
and the site is transformed. -/
theorem claim_C8_counterexample :
    re_sub commaIdInput ≠ commaIdInput
    ∧ matchToks patToks commaIdInput
        = some ([(1, " ".data), (2, "A".data), (3, "B".data),
            (4, pstr "C, #method# => m2, #params# => p2")], []) := by
  constructor
  · decide
  · decide

/-- C8 amended: the id capture group accepts only comma-free substrings —
in every successful match of the pattern, the captured group 2 contains
no comma (a restriction the spec never states) — and the concrete site
with id `foo(1, 2)` is indeed left unchanged.  A comma-bearing id can
still be matched via a shorter comma-free re-parse (see the
counterexample). -/
theorem claim_C8_id_capture_comma_free (s : List Char)
    (gs : List (Nat × List Char)) (r : List Char)
    (h : matchToks patToks s = some (gs, r)) :
    (∀ a ∈ grpGet gs 2, a ≠ ',') ∧ re_sub fnIdInput = fnIdInput := by
  constructor
  · intro a ha
    cases hlk : gs.lookup 2 with
    | none => simp [grpGet, hlk] at ha
    | some g =>
      have hmem2 : (2, g) ∈ gs := by
        obtain ⟨l₁, l₂, rfl, -⟩ := List.lookup_eq_some_iff.mp hlk
        simp
      obtain ⟨c, lo, hi2, lz, htok, hcls⟩ := matchToks_grp_mem patToks s gs r h 2 g hmem2
      rw [patToks, patRest] at htok
      simp [grp1Tok, grp2Tok, grp3Tok, grp4Tok, wsTok, qTok] at htok
      obtain ⟨hc, -⟩ := htok
      subst hc
      have ha2 : a ∈ g := by simpa [grpGet, hlk] using ha
      have := hcls a ha2
      simpa [CC.mem] using this
  · decide

theorem claim_C8_witness :
    matchToks patToks exampleInput
      = some ([(1, "    ".data), (2, "$id".data), (3, pstr "#foo#"),
          (4, "$args".data)], [])
    ∧ ∀ a ∈ grpGet [(1, "    ".data), (2, "$id".data), (3, pstr "#foo#"),
          (4, "$args".data)] 2, a ≠ ',' := by
  refine ⟨by decide, ?_⟩
  exact (claim_C8_id_capture_comma_free exampleInput _ [] (by decide)).1

/-- C9: for a well-formed call site — nonempty captures, comma-free id
and method, no leading whitespace on the captures, and a params capture
with no earlier stopping point for the lazy group in either variant —
the input with a single trailing comma after the params expression and
the input without it produce exactly the same output: the comma (and any
whitespace around the closer) is excluded from the captured params, and
the replacement template always emits its own comma after
`'arguments'`. -/
theorem claim_C9_trailing_comma
    (pre ind idv mth prm w1 w2 post : List Char)
    (hind : ind ≠ []) (hindw : ∀ a ∈ ind, isPyWs a = true)
    (hidv : idv ≠ []) (hidvc : ∀ a ∈ idv, a ≠ ',')
    (hidvh : headNotMem .ws idv = true)
    (hmth : mth ≠ []) (hmthc : ∀ a ∈ mth, a ≠ ',')
    (hmthh : headNotMem .ws mth = true)
    (hprm : prm ≠ []) (hprmh : headNotMem .ws prm = true)
    (hw1 : ∀ a ∈ w1, isPyWs a = true) (hw2 : ∀ a ∈ w2, isPyWs a = true)
    (hstop1 : ∀ j, 1 ≤ j → j < prm.length →
      matchToks tailToks (prm.drop j ++ (',' :: (w1 ++ (']' :: ')' :: ';' :: post)))) = none)
    (hstop2 : ∀ j, 1 ≤ j → j < prm.length →
      matchToks tailToks (prm.drop j ++ (w2 ++ (']' :: ')' :: ';' :: post))) = none)
    (hpre1 : noMatchAlong pre
      (callSiteTail ind idv mth prm (',' :: (w1 ++ (']' :: ')' :: ';' :: post)))))
    (hpre2 : noMatchAlong pre
      (callSiteTail ind idv mth prm (w2 ++ (']' :: ')' :: ';' :: post)))) :
    re_sub (pre ++ callSiteTail ind idv mth prm (',' :: (w1 ++ (']' :: ')' :: ';' :: post))))
      = re_sub (pre ++ callSiteTail ind idv mth prm (w2 ++ (']' :: ')' :: ';' :: post)))
    ∧ re_sub (pre ++ callSiteTail ind idv mth prm (',' :: (w1 ++ (']' :: ')' :: ';' :: post))))
      = pre ++ (transform_request ind idv mth prm ++ re_sub post) := by
  have hm1 := matchToks_callSite ind idv mth prm
    (',' :: (w1 ++ (']' :: ')' :: ';' :: post))) post hind hindw hidv hidvc hidvh
    hmth hmthc hmthh hprm hprmh hstop1 (matchToks_tail_comma w1 post hw1)
  have hm2 := matchToks_callSite ind idv mth prm
    (w2 ++ (']' :: ')' :: ';' :: post)) post hind hindw hidv hidvc hidvh
    hmth hmthc hmthh hprm hprmh hstop2 (matchToks_tail_nocomma w2 post hw2)
  have e1 : re_sub (pre ++ callSiteTail ind idv mth prm
      (',' :: (w1 ++ (']' :: ')' :: ';' :: post))))
      = pre ++ (transform_request ind idv mth prm ++ re_sub post) := by
    rw [re_sub_append _ _ hpre1, re_sub_match _ _ _ hm1]
    rfl
  have e2 : re_sub (pre ++ callSiteTail ind idv mth prm
      (w2 ++ (']' :: ')' :: ';' :: post)))
      = pre ++ (transform_request ind idv mth prm ++ re_sub post) := by
    rw [re_sub_append _ _ hpre2, re_sub_match _ _ _ hm2]
    rfl
  exact ⟨e1.trans e2.symm, e1⟩

theorem claim_C9_witness :
    re_sub (callSiteTail " ".data "1".data "m".data "p".data
        (',' :: (" ".data ++ (']' :: ')' :: ';' :: "\n".data))))
      = re_sub (callSiteTail " ".data "1".data "m".data "p".data
        ("".data ++ (']' :: ')' :: ';' :: "\n".data))) := by
  have h := claim_C9_trailing_comma [] " ".data "1".data "m".data "p".data
    " ".data "".data "\n".data
    (by decide) (by decide) (by decide) (by decide) (by decide)
    (by decide) (by decide) (by decide) (by decide) (by decide)
    (by decide) (by decide) (by decide) (by decide)
    (fun i hi => absurd hi (by simp)) (fun i hi => absurd hi (by simp))
  simpa using h.1

/-- C10: a well-formed call site in column zero at the very start of the
text is never transformed, because the pattern's first group `(\s+)`
demands at least one whitespace character before `$requestObject`; and
that group accepts any whitespace, newlines included — prefixed with a
single `'\n'` the same site is matched with `'\n'` as the captured
"indentation". -/
theorem claim_C10_column_zero (c : Char) (s : List Char)
    (hc : isPyWs c = false)
    (hs : noMatchAlong s []) :
    matchToks patToks (c :: s) = none
    ∧ re_sub (c :: s) = c :: s
    ∧ isPyWs '\n' = true
    ∧ re_sub ('\n' :: pstr "$requestObject = RequestObjectData::from([#jsonrpc# => #2.0#, #id# => 1, #method# => m, #params# => p]);")
        = transform_request ['\n'] "1".data "m".data "p".data := by
  have hnone : matchToks patToks (c :: s) = none := by
    have hcand : candList .ws 1 none false (c :: s) = [] := by
      simp [candList, List.takeWhile_cons, CC.mem, hc]
    rw [patToks, grp1Tok, matchToks, hcand]
    rfl
  refine ⟨hnone, ?_, by decide, by decide⟩
  show subGoF (s.length + 1) (c :: s) = c :: s
  rw [subGoF, hnone]
  exact congrArg (c :: ·) (re_sub_nomatch s hs)

theorem claim_C10_witness :
    isPyWs '$' = false
    ∧ re_sub ('$' :: pstr "requestObject = RequestObjectData::from([#jsonrpc# => #2.0#, #id# => 1, #method# => m, #params# => p]);")
        = '$' :: pstr "requestObject = RequestObjectData::from([#jsonrpc# => #2.0#, #id# => 1, #method# => m, #params# => p]);" := by
  refine ⟨by decide, ?_⟩
  exact (claim_C10_column_zero '$' _ (by decide) (by decide)).2.1
